import Mathlib

/-!
Shallow embedding of the PUT/GET/HEAD/DELETE data path of the garage object
store (files `src/api/s3_put.rs`, `src/api/api_server.rs`,
`src/model/bucket_table.rs`).

Conventions of the embedding:
* byte strings are `List Nat`; block hashes are produced by an abstract
  digest function passed as a parameter (the real SHA-256 lives outside the
  sources under verification);
* UUIDs are `List Nat`; the all-zero sentinel of `handle_delete` is
  `List.replicate 32 0` (`[0u8; 32].into()` in the source);
* the async pipeline is sequentialised: the effects a handler performs
  (table inserts, block RPCs) are recorded in a `List PutEvent` trace in
  program-text order; external reads (table `get`, `rpc_get_block`) are
  function parameters;
* the `loop` of the streaming PUT is embedded with explicit fuel
  (`body.flatten.length + 1`), proven sufficient whenever `block_size > 0`;
* entities whose code is not under `src/` (`Object::new`, `Version::new`,
  `Version::add_block`, the `crdt` module, `Object`/`ObjectVersion` merge,
  `PermissionSet`) are modelled from the specification and marked as such.
-/

namespace Garage

/-- Block content digests; the real type is a 32-byte SHA-256 hash. -/
abbrev Hash := List Nat

/-- 128-bit identifiers; modelled as byte lists. -/
abbrev UUID := List Nat

/-- The all-zero UUID sentinel returned by `handle_delete` when there is
nothing to delete (`[0u8; 32].into()` in the source). -/
def zeroUUID : UUID := List.replicate 32 0

/-- `ObjectVersionData` from `garage_core::object_table`. -/
inductive ObjectVersionData
  | DeleteMarker
  | Inline (bytes : List Nat)
  | FirstBlock (hash : Hash)
deriving DecidableEq

/-- `ObjectVersion` from `garage_core::object_table`. -/
structure ObjectVersion where
  uuid : UUID
  timestamp : Nat
  mime_type : String
  size : Nat
  is_complete : Bool
  data : ObjectVersionData
deriving DecidableEq

/-- `Object` from `garage_core::object_table`: the record stored at
`(bucket, key)`, holding the ordered set of versions. -/
structure Object where
  bucket : String
  key : String
  versions : List ObjectVersion
deriving DecidableEq

/-- Modelled from the spec: `Object::new` (garage_core::object_table, not
under `src/`) builds an Object at `(bucket, key)` holding the given ordered
set of versions.  Every call in the sources passes a singleton version
list, on which ordering is the identity, so the plain constructor is
faithful for all uses under verification. -/
def Object.new (bucket key : String) (versions : List ObjectVersion) : Object :=
  ⟨bucket, key, versions⟩

/-- `VersionBlock` from `garage_core::version_table`. -/
structure VersionBlock where
  offset : Nat
  hash : Hash
deriving DecidableEq

/-- `Version` from `garage_core::version_table`: the per-version list of
blocks, keyed by the version uuid. -/
structure Version where
  uuid : UUID
  bucket : String
  key : String
  deleted : Bool
  blocks : List VersionBlock
deriving DecidableEq

/-- Modelled from the spec: `Version::new` (garage_core::version_table, not
under `src/`), the plain constructor. -/
def Version.new (uuid : UUID) (bucket key : String) (deleted : Bool)
    (blocks : List VersionBlock) : Version :=
  ⟨uuid, bucket, key, deleted, blocks⟩

/-- Modelled from the spec: `Version::add_block` (garage_core::version_table,
not under `src/`) "must append with strictly increasing offset; a
disordered insert is a programmer error".  `none` models the `Err` that the
caller in `put_block_meta` unwraps. -/
def Version.add_block (v : Version) (b : VersionBlock) : Option Version :=
  match v.blocks.getLast? with
  | none => some { v with blocks := v.blocks ++ [b] }
  | some last =>
    if last.offset < b.offset then some { v with blocks := v.blocks ++ [b] }
    else none

/-- `BlockRef` from `garage_core::block_ref_table`. -/
structure BlockRef where
  block : Hash
  version : UUID
  deleted : Bool
deriving DecidableEq

/-- The error kinds the embedded handlers surface (`garage_util::error`).
`Internal` models panics and the fuel artifact of the embedded loop. -/
inductive Error
  | BadRequest (msg : String)
  | NotFound
  | Internal (msg : String)
deriving DecidableEq

/-- One externally visible side effect of a handler: a table insert or a
block RPC, recorded in program-text order. -/
inductive PutEvent
  | insertObject (o : Object)
  | insertVersion (v : Version)
  | insertBlockRef (r : BlockRef)
  | putBlock (h : Hash) (b : List Nat)
deriving DecidableEq

/-! ## BodyChunker (`src/api/s3_put.rs`, lines 111-147) -/

/-- `BodyChunker` state: the remaining body chunks, the `read_all` flag,
the configured block size and the internal buffer. -/
structure BodyChunker where
  body : List (List Nat)
  read_all : Bool
  block_size : Nat
  buf : List Nat
deriving DecidableEq

/-- `BodyChunker::new`. -/
def BodyChunker.new (body : List (List Nat)) (block_size : Nat) : BodyChunker :=
  ⟨body, false, block_size, []⟩

/-- The `while !self.read_all && self.buf.len() < self.block_size` loop of
`BodyChunker::next`: pull body chunks into the buffer until it holds at
least `block_size` bytes or the body is exhausted (then `read_all` is set).
Returns the remaining body, the `read_all` flag and the buffer. -/
def fillLoop (block_size : Nat) : List (List Nat) → List Nat →
    List (List Nat) × Bool × List Nat
  | body, buf =>
    if block_size ≤ buf.length then (body, false, buf)
    else
      match body with
      | [] => ([], true, buf)
      | chunk :: rest => fillLoop block_size rest (buf ++ chunk)

/-- `BodyChunker::next`: fill the buffer, then emit `None` when it is
empty, the whole buffer when it holds at most `block_size` bytes, and the
first `block_size` bytes otherwise. -/
def BodyChunker.next (c : BodyChunker) : Option (List Nat) × BodyChunker :=
  let r :=
    if c.read_all then (c.body, true, c.buf)
    else fillLoop c.block_size c.body c.buf
  let body := r.1
  let ra := r.2.1
  let buf := r.2.2
  if buf.length = 0 then
    (none, ⟨body, ra, c.block_size, buf⟩)
  else if buf.length ≤ c.block_size then
    (some buf, ⟨body, ra, c.block_size, []⟩)
  else
    (some (buf.take c.block_size), ⟨body, ra, c.block_size, buf.drop c.block_size⟩)

/-- The bytes a chunker has left to deliver: buffer plus remaining body. -/
def BodyChunker.content (c : BodyChunker) : List Nat :=
  c.buf ++ c.body.flatten

/-- Reachable-state invariant of the chunker: once `read_all` is set the
body has been fully consumed. -/
def BodyChunker.Inv (c : BodyChunker) : Prop :=
  c.read_all = true → c.body = []

/-- The result of the `i`-th (0-based) call to `next` starting from `c`. -/
def BodyChunker.run : BodyChunker → Nat → Option (List Nat)
  | c, 0 => (c.next).1
  | c, n + 1 => BodyChunker.run (c.next).2 n

/-! ## handle_put (`src/api/s3_put.rs`, lines 16-109) -/

/-- `put_block_meta` (`src/api/s3_put.rs`, lines 88-109): clone the version,
append the new block (the source unwraps the result — `none` models that
panic), then insert the grown Version and a live BlockRef. -/
def putBlockMetaEvents (version : Version) (offset : Nat) (h : Hash) :
    Option (List PutEvent) :=
  match version.add_block ⟨offset, h⟩ with
  | none => none
  | some v =>
    some [PutEvent.insertVersion v, PutEvent.insertBlockRef ⟨h, v.uuid, false⟩]

/-- The `loop` of the streaming path of `handle_put` (lines 62-75),
embedded with explicit fuel: join the in-flight block put and metadata put
with the next chunker pull; while a next block exists, hash it, record its
metadata at the current `next_offset`, ship it, and advance `next_offset`
by its length.  Returns the trace of effects and the final `next_offset`
(or the events performed so far together with an error: the modelled
`add_block` unwrap panic, or fuel exhaustion — an artifact of the
embedding, proven unreachable for positive block sizes). -/
def putLoop (hashFn : List Nat → Hash) (version : Version) :
    Nat → BodyChunker → Nat → List PutEvent × Except Error Nat
  | 0, _, _ => ([], Except.error (Error.Internal "loop: out of fuel"))
  | fuel + 1, c, next_offset =>
    match c.next with
    | (none, _) => ([], Except.ok next_offset)
    | (some block, c') =>
      let block_hash := hashFn block
      match putBlockMetaEvents version next_offset block_hash with
      | none => ([], Except.error (Error.Internal "panic: add_block unwrap"))
      | some mevs =>
        let r := putLoop hashFn version fuel c' (next_offset + block.length)
        (mevs ++ [PutEvent.putBlock block_hash block] ++ r.1, r.2)

/-- `handle_put` (`src/api/s3_put.rs`, lines 16-86): pull the first block
(`BadRequest` on an empty body); below `INLINE_THRESHOLD` commit a single
inline, complete ObjectVersion; otherwise commit a provisional incomplete
`FirstBlock` ObjectVersion, stream all blocks through `put_block_meta` and
`rpc_put_block`, and finally commit the same-uuid ObjectVersion with
`is_complete = true` and `size = next_offset`.  Returns the effect trace
and the result. -/
def handle_put (hashFn : List Nat → Hash) (version_uuid : UUID) (now : Nat)
    (block_size inline_threshold : Nat) (mime_type bucket key : String)
    (body : List (List Nat)) : List PutEvent × Except Error UUID :=
  let chunker := BodyChunker.new body block_size
  match chunker.next with
  | (none, _) => ([], Except.error (Error.BadRequest "Empty body"))
  | (some first_block, chunker) =>
    let object_version : ObjectVersion :=
      ⟨version_uuid, now, mime_type, first_block.length, false,
        ObjectVersionData.DeleteMarker⟩
    if first_block.length < inline_threshold then
      let object_version :=
        { object_version with
            data := ObjectVersionData.Inline first_block, is_complete := true }
      let object := Object.new bucket key [object_version]
      ([PutEvent.insertObject object], Except.ok version_uuid)
    else
      let version := Version.new version_uuid bucket key false []
      let first_block_hash := hashFn first_block
      let object_version :=
        { object_version with data := ObjectVersionData.FirstBlock first_block_hash }
      let object := Object.new bucket key [object_version]
      match putBlockMetaEvents version 0 first_block_hash with
      | none =>
        ([PutEvent.insertObject object],
          Except.error (Error.Internal "panic: add_block unwrap"))
      | some mevs0 =>
        match putLoop hashFn version (body.flatten.length + 1) chunker
            first_block.length with
        | (evs, Except.error e) =>
          (PutEvent.insertObject object :: mevs0
              ++ [PutEvent.putBlock first_block_hash first_block] ++ evs,
            Except.error e)
        | (evs, Except.ok next_offset) =>
          let object_version :=
            { object_version with is_complete := true, size := next_offset }
          let final_object := Object.new bucket key [object_version]
          (PutEvent.insertObject object :: mevs0
              ++ [PutEvent.putBlock first_block_hash first_block] ++ evs
              ++ [PutEvent.insertObject final_object],
            Except.ok version_uuid)

/-! ## handle_delete (`src/api/s3_put.rs`, lines 149-190) -/

/-- `handle_delete`: if the object is absent or has no version other than
delete markers, do nothing and return the zero-UUID sentinel; otherwise
insert a single fresh delete-marker version and return its uuid.  The
stored object (the table `get` result) is a parameter. -/
def handle_delete (version_uuid : UUID) (now : Nat) (bucket key : String)
    (stored : Option Object) : List PutEvent × UUID :=
  let exists_ : Bool :=
    match stored with
    | none => false
    | some o => o.versions.any (fun v => v.data ≠ ObjectVersionData.DeleteMarker)
  if !exists_ then
    ([], zeroUUID)
  else
    let object := Object.new bucket key
      [⟨version_uuid, now, "application/x-delete-marker", 0, true,
        ObjectVersionData.DeleteMarker⟩]
    ([PutEvent.insertObject object], version_uuid)

/-! ## handle_head / handle_get (`src/api/api_server.rs`, lines 312-425) -/

/-- The response headers built by `object_headers`
(`src/api/api_server.rs`, lines 312-320).  `Last-Modified` is modelled by
the raw millisecond timestamp it is formatted from (`httpdate` is an
external pure formatter). -/
structure Headers where
  contentType : String
  contentLength : Nat
  lastModified : Nat
deriving DecidableEq

/-- `object_headers`: Content-Type from the mime type, Content-Length from
the size, Last-Modified from the timestamp. -/
def object_headers (v : ObjectVersion) : Headers :=
  ⟨v.mime_type, v.size, v.timestamp⟩

/-- A response body: a one-shot byte body, or the lazy block stream of the
`FirstBlock` branch described by its `(hash, prefetched bytes)` entries. -/
inductive RespBody
  | bytes (b : List Nat)
  | stream (entries : List (Hash × Option (List Nat)))
deriving DecidableEq

/-- An HTTP response: status, headers, body description. -/
structure Resp where
  status : Nat
  headers : Headers
  body : RespBody
deriving DecidableEq

/-- `handle_head` (`src/api/api_server.rs`, lines 322-353): `NotFound` if
the object is absent; select the most recent version that is complete and
not a delete marker (`NotFound` if none); answer 200 with the version's
headers and an empty body. -/
def handle_head (stored : Option Object) : Except Error Resp :=
  match stored with
  | none => Except.error Error.NotFound
  | some o =>
    match o.versions.reverse.find?
        (fun v => v.is_complete && decide (v.data ≠ ObjectVersionData.DeleteMarker)) with
    | none => Except.error Error.NotFound
    | some v => Except.ok ⟨200, object_headers v, RespBody.bytes []⟩

/-- `handle_get` (`src/api/api_server.rs`, lines 355-425): `NotFound` if
the object is absent; select the most recent complete version (`NotFound`
if none); a DeleteMarker maps to `NotFound`; an inline version answers 200
with its bytes; a `FirstBlock` version joins the first block fetch with the
Version-record lookup (`NotFound` when the record is absent; the source
indexes `blocks[0]` - an empty block list panics) and answers 200 with the
block stream, first entry prefetched.  `get_block` and `version_get` are
the external block manager and version table. -/
def handle_get (get_block : Hash → Except Error (List Nat))
    (version_get : UUID → Except Error (Option Version))
    (stored : Option Object) : Except Error Resp :=
  match stored with
  | none => Except.error Error.NotFound
  | some o =>
    match o.versions.reverse.find? (fun v => v.is_complete) with
    | none => Except.error Error.NotFound
    | some last_v =>
      match last_v.data with
      | ObjectVersionData.DeleteMarker => Except.error Error.NotFound
      | ObjectVersionData.Inline bytes =>
        Except.ok ⟨200, object_headers last_v, RespBody.bytes bytes⟩
      | ObjectVersionData.FirstBlock first_block_hash =>
        match get_block first_block_hash, version_get last_v.uuid with
        | Except.error e, _ => Except.error e
        | Except.ok _, Except.error e => Except.error e
        | Except.ok _, Except.ok none => Except.error Error.NotFound
        | Except.ok first_block, Except.ok (some version) =>
          match version.blocks with
          | [] => Except.error (Error.Internal "panic: blocks[0] out of bounds")
          | vb0 :: rest =>
            Except.ok ⟨200, object_headers last_v,
              RespBody.stream ((vb0.hash, some first_block)
                :: rest.map (fun vb => (vb.hash, none)))⟩

/-! ## Block decomposition of a byte string (statement vocabulary for the
PUT claims: the blocks `B0, B1, ...` a body yields and the effect trace the
streaming loop is expected to record for them) -/

/-- `chunkListAux bs fuel d`: split `d` into consecutive chunks of `bs`
bytes (the last one possibly shorter), with fuel bounding the recursion;
`fuel = d.length` suffices whenever `0 < bs`. -/
def chunkListAux (bs : Nat) : Nat → List Nat → List (List Nat)
  | 0, _ => []
  | fuel + 1, d =>
    if d = [] then [] else d.take bs :: chunkListAux bs fuel (d.drop bs)

/-- The consecutive `bs`-byte blocks of `d` (last possibly shorter). -/
def chunkList (bs : Nat) (d : List Nat) : List (List Nat) :=
  chunkListAux bs d.length d

/-- The three effects the streaming PUT records for one block at a given
offset: the single-block Version insert, the live BlockRef insert and the
block RPC. -/
def blockEvents (hashFn : List Nat → Hash) (version : Version) (off : Nat)
    (b : List Nat) : List PutEvent :=
  [PutEvent.insertVersion { version with blocks := [⟨off, hashFn b⟩] },
    PutEvent.insertBlockRef ⟨hashFn b, version.uuid, false⟩,
    PutEvent.putBlock (hashFn b) b]

/-- The expected trace of the streaming loop over a list of blocks: each
block's effects at the running offset, which advances by the block's
length. -/
def loopEventsSpec (hashFn : List Nat → Hash) (version : Version) :
    Nat → List (List Nat) → List PutEvent
  | _, [] => []
  | off, b :: rest =>
    blockEvents hashFn version off b
      ++ loopEventsSpec hashFn version (off + b.length) rest

/-! ## Bucket table (`src/model/bucket_table.rs`) and the CRDT primitives
it consumes -/

/-- Modelled from the spec: `crdt::LWW` (garage_table::crdt, not under
`src/`): state `(timestamp, value)`. -/
structure LWW (T : Type) where
  ts : Nat
  v : T

/-- Modelled from the spec: the LWW merge keeps the entry with the larger
timestamp; the spec leaves the equal-timestamp tie-break open (its SECTION 9
open question) and the source provides `impl CRDT for BucketState` as the
value merge, so equal timestamps merge the two values with the inner CRDT
merge `m`. -/
def LWW.mergeWith (m : T → T → T) (a o : LWW T) : LWW T :=
  if a.ts < o.ts then o
  else if o.ts < a.ts then a
  else ⟨a.ts, m a.v o.v⟩

/-- Modelled from the spec: `PermissionSet` (model::key_table, not under
`src/`): the per-key read/write capability flags. -/
structure PermissionSet where
  allow_read : Bool
  allow_write : Bool
deriving DecidableEq

/-- Modelled from the spec: merging permission flags is the monotone
boolean join (the spec's only merge law for flags). -/
def PermissionSet.merge (a o : PermissionSet) : PermissionSet :=
  ⟨a.allow_read || o.allow_read, a.allow_write || o.allow_write⟩

/-- Modelled from the spec: `crdt::LWWMap` (not under `src/`), "a mapping
from K to (timestamp, V)". -/
def LWWMap (K V : Type) := K → Option (Nat × V)

/-- Per-key join of two optional timestamped values: the larger timestamp
wins, equal timestamps merge the values with `m`. -/
def timedJoin (m : V → V → V) :
    Option (Nat × V) → Option (Nat × V) → Option (Nat × V)
  | none, x => x
  | x, none => x
  | some (t1, v1), some (t2, v2) =>
    if t1 < t2 then some (t2, v2)
    else if t2 < t1 then some (t1, v1)
    else some (t1, m v1 v2)

/-- Modelled from the spec: the LWW-map merge "takes the per-key LWW
winner". -/
def LWWMap.merge (m : V → V → V) (a o : LWWMap K V) : LWWMap K V :=
  fun k => timedJoin m (a k) (o k)

/-- `BucketParams` (`src/model/bucket_table.rs`): the LWW-map of authorized
keys and the LWW website flag. -/
structure BucketParams where
  authorized_keys : LWWMap String PermissionSet
  website : LWW Bool

/-- `BucketState` (`src/model/bucket_table.rs`): a bucket is `Deleted` or
`Present` with parameters. -/
inductive BucketState
  | Deleted
  | Present (params : BucketParams)

/-- `BucketParams::merge` (`src/model/bucket_table.rs`, lines 51-56):
field-wise merge of the two CRDT containers. -/
def BucketParams.merge (a o : BucketParams) : BucketParams :=
  ⟨LWWMap.merge PermissionSet.merge a.authorized_keys o.authorized_keys,
    LWW.mergeWith or a.website o.website⟩

/-- `BucketState::merge` (`src/model/bucket_table.rs`, lines 32-43):
merging with `Deleted` yields `Deleted`; two `Present` states merge their
parameters. -/
def BucketState.merge (s o : BucketState) : BucketState :=
  match o with
  | BucketState.Deleted => BucketState.Deleted
  | BucketState.Present other_params =>
    match s with
    | BucketState.Present params => BucketState.Present (params.merge other_params)
    | BucketState.Deleted => BucketState.Deleted

/-- `Bucket` (`src/model/bucket_table.rs`): name and LWW state. -/
structure Bucket where
  name : String
  state : LWW BucketState

/-- `Bucket`'s `Entry::merge` (`src/model/bucket_table.rs`, lines 87-89):
`self.state.merge(&other.state)`. -/
def Bucket.merge (a o : Bucket) : Bucket :=
  { a with state := LWW.mergeWith BucketState.merge a.state o.state }

/-! ## The Object CRDT merge (table-side state evolution for the DELETE
claims) -/

/-- Modelled from the spec: merging two ObjectVersions with the same uuid
(garage_core::object_table, not under `src/`): `is_complete` is monotone
and the size is the larger one; the other fields of a version are immutable
once inserted. -/
def ObjectVersion.merge (a o : ObjectVersion) : ObjectVersion :=
  { a with is_complete := a.is_complete || o.is_complete, size := max a.size o.size }

/-- Lexicographic byte-list comparison, the deterministic uuid tie-break of
invariant I1 ("versions ordered by timestamp, ties broken by uuid"). -/
def uuidLt : List Nat → List Nat → Bool
  | [], [] => false
  | [], _ :: _ => true
  | _ :: _, [] => false
  | x :: xs, y :: ys => if x < y then true else if y < x then false else uuidLt xs ys

/-- Insert one version into an ordered version set: an equal uuid merges
(I1: at most one version per uuid), otherwise the version is placed by
(timestamp, uuid). -/
def insertVersionSorted : List ObjectVersion → ObjectVersion → List ObjectVersion
  | [], v => [v]
  | w :: rest, v =>
    if v.uuid = w.uuid then w.merge v :: rest
    else if v.timestamp < w.timestamp
        ∨ (v.timestamp = w.timestamp ∧ uuidLt v.uuid w.uuid = true) then
      v :: w :: rest
    else w :: insertVersionSorted rest v

/-- Modelled from the spec: after a merge, versions strictly preceding the
last complete one are obsolete and dropped — the pruning the spec's
DELETE-after-DELETE no-op property (its SECTION 8), combined with
`handle_delete`'s active-version test in `src`, forces on the absent
object-table merge (garage's real `Object::merge` drains exactly these
versions).  A version is kept iff no later version is complete; when no
version is complete, all are kept. -/
def pruneObsolete : List ObjectVersion → List ObjectVersion
  | [] => []
  | v :: rest =>
    if rest.any (fun w => w.is_complete) then pruneObsolete rest
    else v :: rest

/-- Modelled from the spec: the `Object` CRDT merge (garage_core::object_table,
not under `src/`): the version sets are united keyed by uuid, ordered by
(timestamp, uuid), and versions made obsolete by a later complete version
are pruned (see `pruneObsolete`). -/
def Object.merge (a o : Object) : Object :=
  { a with
      versions := pruneObsolete (o.versions.foldl insertVersionSorted a.versions) }

/-! # Theorems

## Chunker behaviour -/

theorem fillLoop_spec (bs : Nat) :
    ∀ (body : List (List Nat)) (buf : List Nat) {body' : List (List Nat)}
      {ra' : Bool} {buf' : List Nat},
      fillLoop bs body buf = (body', ra', buf') →
      buf' ++ body'.flatten = buf ++ body.flatten ∧
        ((ra' = false ∧ bs ≤ buf'.length) ∨
          (ra' = true ∧ body' = [] ∧ buf'.length < bs)) := by
  intro body
  induction body with
  | nil =>
    intro buf body' ra' buf' h
    rw [fillLoop] at h
    by_cases hb : bs ≤ buf.length
    · simp only [if_pos hb] at h
      simp only [Prod.mk.injEq] at h
      obtain ⟨rfl, rfl, rfl⟩ := h
      exact ⟨rfl, Or.inl ⟨rfl, hb⟩⟩
    · simp only [if_neg hb] at h
      simp only [Prod.mk.injEq] at h
      obtain ⟨rfl, rfl, rfl⟩ := h
      exact ⟨rfl, Or.inr ⟨rfl, rfl, by omega⟩⟩
  | cons chunk rest ih =>
    intro buf body' ra' buf' h
    rw [fillLoop] at h
    by_cases hb : bs ≤ buf.length
    · simp only [if_pos hb] at h
      simp only [Prod.mk.injEq] at h
      obtain ⟨rfl, rfl, rfl⟩ := h
      exact ⟨rfl, Or.inl ⟨rfl, hb⟩⟩
    · simp only [if_neg hb] at h
      obtain ⟨h1, h2⟩ := ih (buf ++ chunk) h
      refine ⟨?_, h2⟩
      rw [h1]
      simp [List.append_assoc]

/-- Content of an explicitly built chunker state. -/
theorem content_mk (body : List (List Nat)) (ra : Bool) (bs : Nat) (buf : List Nat) :
    BodyChunker.content ⟨body, ra, bs, buf⟩ = buf ++ body.flatten := rfl

/-- What one `next` call does to a reachable chunker with a positive block
size: it emits the first `block_size` bytes of the remaining content
(`none` when no byte remains), keeping the rest; the invariant and the
block size are preserved. -/
theorem next_spec (c : BodyChunker) (hInv : c.Inv) (hbs : 0 < c.block_size) :
    (c.next).1
        = (if c.content = [] then none else some (c.content.take c.block_size)) ∧
      (c.next).2.content = c.content.drop c.block_size ∧
      (c.next).2.Inv ∧ (c.next).2.block_size = c.block_size := by
  obtain ⟨body, ra, buf, hr, hP1, hP2, hP3⟩ :
      ∃ body ra buf,
        (if c.read_all then (c.body, true, c.buf)
          else fillLoop c.block_size c.body c.buf) = (body, ra, buf) ∧
        buf ++ body.flatten = c.content ∧ (ra = true → body = []) ∧
        (ra = false → c.block_size ≤ buf.length) := by
    by_cases hra : c.read_all
    · exact ⟨c.body, true, c.buf, by simp [hra], rfl, fun _ => hInv hra,
        by simp⟩
    · rcases hfl : fillLoop c.block_size c.body c.buf with ⟨b', r', f'⟩
      obtain ⟨h1, h2⟩ := fillLoop_spec c.block_size c.body c.buf hfl
      refine ⟨b', r', f', by simp [hra], h1, ?_, ?_⟩
      · intro hr'
        rcases h2 with ⟨hf, _⟩ | ⟨_, hb, _⟩
        · rw [hr'] at hf; cases hf
        · exact hb
      · intro hr'
        rcases h2 with ⟨_, hl⟩ | ⟨ht, _⟩
        · exact hl
        · rw [hr'] at ht; cases ht
  have hnext : c.next =
      (if buf.length = 0 then (none, ⟨body, ra, c.block_size, buf⟩)
        else if buf.length ≤ c.block_size then
          (some buf, ⟨body, ra, c.block_size, []⟩)
        else (some (buf.take c.block_size),
          ⟨body, ra, c.block_size, buf.drop c.block_size⟩)) := by
    simp only [BodyChunker.next, hr]
  by_cases h0 : buf.length = 0
  · have hbuf : buf = [] := List.eq_nil_of_length_eq_zero h0
    have hra' : ra = true := by
      cases ra
      · have := hP3 rfl; omega
      · rfl
    have hbody : body = [] := hP2 hra'
    have hcontent : c.content = [] := by
      rw [← hP1, hbuf, hbody]; rfl
    rw [hnext, if_pos h0]
    refine ⟨by rw [hcontent]; simp, ?_, ?_, rfl⟩
    · rw [content_mk, hcontent, hbuf, hbody]
      simp
    · intro _; exact hbody
  · have hne : c.content ≠ [] := by
      intro hc
      rw [← hP1] at hc
      have : buf = [] := (List.append_eq_nil.mp hc).1
      simp [this] at h0
    rw [hnext, if_neg h0]
    by_cases hle : buf.length ≤ c.block_size
    · rw [if_pos hle]
      have hbody : body = [] ∨ buf.length = c.block_size := by
        cases ra
        · exact Or.inr (le_antisymm hle (hP3 rfl))
        · exact Or.inl (hP2 rfl)
      rcases hbody with hbody | hlen
      · have hcont : c.content = buf := by rw [← hP1, hbody]; simp
        refine ⟨?_, ?_, ?_, rfl⟩
        · rw [if_neg hne, hcont, List.take_of_length_le hle]
        · rw [content_mk, hcont, hbody, List.drop_of_length_le hle]
          rfl
        · intro _; exact hbody
      · refine ⟨?_, ?_, ?_, rfl⟩
        · rw [if_neg hne, ← hP1, ← hlen, List.take_left]
        · rw [content_mk, ← hP1, ← hlen, List.drop_left]
          rfl
        · intro h; exact hP2 h
    · rw [if_neg hle]
      refine ⟨?_, ?_, ?_, rfl⟩
      · rw [if_neg hne, ← hP1, List.take_append_of_le_length (by omega)]
      · rw [content_mk, ← hP1, List.drop_append_of_le_length (by omega)]
      · intro h; exact hP2 h

/-- Iterating `next` from any reachable chunker state: the `i`-th call
emits the `i`-th `block_size`-byte slice of the remaining content, `none`
once the content is exhausted. -/
theorem run_spec (i : Nat) :
    ∀ (c : BodyChunker), c.Inv → 0 < c.block_size →
      c.run i = (if c.content.drop (i * c.block_size) = [] then none
        else some ((c.content.drop (i * c.block_size)).take c.block_size)) := by
  induction i with
  | zero =>
    intro c hInv hbs
    obtain ⟨h1, _, _, _⟩ := next_spec c hInv hbs
    simpa [BodyChunker.run] using h1
  | succ n ih =>
    intro c hInv hbs
    obtain ⟨_, h2, h3, h4⟩ := next_spec c hInv hbs
    have hr := ih (c.next).2 h3 (by rw [h4]; exact hbs)
    rw [h2, h4] at hr
    have harith : (n + 1) * c.block_size = c.block_size + n * c.block_size := by
      ring
    rw [BodyChunker.run, hr, List.drop_drop, ← harith]

/-- C2: a body delivering `n` bytes in total yields, through successive
`BodyChunker::next` calls, blocks of length exactly `block_size` except the
last, whose length is `n mod block_size` when that is nonzero (so
`ceil(n / block_size)` blocks in total for `n > 0`), followed by `None` on
every later call; for `n = 0` the first call already returns `None`. -/
theorem C2_chunker_blocks (body : List (List Nat)) (bs : Nat) (hbs : 0 < bs) :
    (∀ i, i + 1 < (body.flatten.length + bs - 1) / bs →
      ∃ b, (BodyChunker.new body bs).run i = some b ∧ b.length = bs) ∧
    (0 < body.flatten.length →
      ∃ b, (BodyChunker.new body bs).run
            ((body.flatten.length + bs - 1) / bs - 1) = some b ∧
        b.length
          = (if body.flatten.length % bs = 0 then bs
              else body.flatten.length % bs)) ∧
    (∀ i, (body.flatten.length + bs - 1) / bs ≤ i →
      (BodyChunker.new body bs).run i = none) ∧
    (body.flatten.length = 0 → (BodyChunker.new body bs).run 0 = none) := by
  set n := body.flatten.length with hn
  set k := (n + bs - 1) / bs with hk
  have hInv : (BodyChunker.new body bs).Inv := by
    intro h; cases h
  have hbsz : (BodyChunker.new body bs).block_size = bs := rfl
  have hcont : (BodyChunker.new body bs).content = body.flatten := by
    simp [BodyChunker.new, BodyChunker.content]
  have hrun : ∀ i, (BodyChunker.new body bs).run i
      = (if body.flatten.drop (i * bs) = [] then none
        else some ((body.flatten.drop (i * bs)).take bs)) := by
    intro i
    rw [run_spec i _ hInv (by rw [hbsz]; exact hbs), hbsz, hcont]
  have hk1 : k * bs ≤ n + bs - 1 := Nat.div_mul_le_self _ _
  have hk2 : n + bs - 1 < (k + 1) * bs :=
    (Nat.div_lt_iff_lt_mul hbs).mp (Nat.lt_succ_self k)
  refine ⟨?_, ?_, ?_, ?_⟩
  · intro i hi
    have e1 : (i + 2) * bs ≤ k * bs := Nat.mul_le_mul_right bs (by omega)
    have e2 : (i + 2) * bs = i * bs + 2 * bs := by ring
    have hfull : i * bs + bs ≤ n := by omega
    rw [hrun i, if_neg (by rw [List.drop_eq_nil_iff, ← hn]; omega)]
    refine ⟨_, rfl, ?_⟩
    rw [List.length_take, List.length_drop, ← hn]
    omega
  · intro hn0
    have hkpos : 0 < k := by
      rcases Nat.eq_zero_or_pos k with h | h
      · rw [h] at hk2; simp at hk2; omega
      · exact h
    obtain ⟨j, hkj⟩ : ∃ j, k = j + 1 := ⟨k - 1, by omega⟩
    rw [hkj] at hk1 hk2 ⊢
    have e1 : (j + 1) * bs = j * bs + bs := by ring
    have e2 : (j + 1 + 1) * bs = j * bs + 2 * bs := by ring
    have hlow : j * bs + 1 ≤ n := by omega
    have hhigh : n ≤ j * bs + bs := by omega
    have hmod : n - j * bs = (if n % bs = 0 then bs else n % bs) := by
      have hdm := Nat.div_add_mod n bs
      have hmlt : n % bs < bs := Nat.mod_lt _ hbs
      set q := n / bs with hq
      set r := n % bs with hr
      by_cases h0 : r = 0
      · rw [if_pos h0]
        rw [h0, Nat.add_zero] at hdm
        have hjq : j + 1 = q := by
          have hlt : j * bs < q * bs := by
            rw [Nat.mul_comm q bs, hdm]; omega
          have hle : q * bs ≤ (j + 1) * bs := by
            rw [Nat.mul_comm q bs, hdm]; omega
          have := Nat.lt_of_mul_lt_mul_right hlt
          have := Nat.le_of_mul_le_mul_right hle hbs
          omega
        have : q * bs = j * bs + bs := by rw [← hjq]; ring
        rw [Nat.mul_comm q bs] at this
        omega
      · rw [if_neg h0]
        have hjq : j = q := by
          have hlt : q * bs < (j + 1) * bs := by
            rw [Nat.mul_comm q bs]; omega
          have hlt2 : j * bs < (q + 1) * bs := by
            have : (q + 1) * bs = q * bs + bs := by ring
            rw [this, Nat.mul_comm q bs]
            omega
          have := Nat.lt_of_mul_lt_mul_right hlt
          have := Nat.lt_of_mul_lt_mul_right hlt2
          omega
        rw [hjq, Nat.mul_comm q bs]
        omega
    rw [hrun ((j + 1) - 1)]
    have hj1 : j + 1 - 1 = j := rfl
    rw [hj1, if_neg (by rw [List.drop_eq_nil_iff, ← hn]; omega)]
    refine ⟨_, rfl, ?_⟩
    rw [List.length_take, List.length_drop, ← hn]
    omega
  · intro i hi
    have e1 : k * bs ≤ i * bs := Nat.mul_le_mul_right bs hi
    have e2 : (k + 1) * bs = k * bs + bs := by ring
    rw [hrun i, if_pos (by rw [List.drop_eq_nil_iff, ← hn]; omega)]
  · intro h0
    rw [hrun 0, if_pos (by rw [List.drop_eq_nil_iff, ← hn]; omega)]

/-! ## The streaming PUT loop -/

theorem chunkListAux_eq (bs : Nat) (hbs : 0 < bs) :
    ∀ (fuel fuel' : Nat) (d : List Nat), d.length ≤ fuel → d.length ≤ fuel' →
      chunkListAux bs fuel d = chunkListAux bs fuel' d := by
  intro fuel
  induction fuel with
  | zero =>
    intro fuel' d hd _
    have hnil : d = [] := by
      cases d
      · rfl
      · simp at hd
    subst hnil
    cases fuel' <;> simp [chunkListAux]
  | succ f ih =>
    intro fuel' d hd hd'
    by_cases hnil : d = []
    · subst hnil
      cases fuel' <;> simp [chunkListAux]
    · cases fuel' with
      | zero =>
        exfalso
        have : d.length = 0 := by omega
        exact hnil (List.eq_nil_of_length_eq_zero this)
      | succ f' =>
        rw [chunkListAux, chunkListAux, if_neg hnil, if_neg hnil]
        have hd0 : 0 < d.length := by
          cases d
          · exact absurd rfl hnil
          · simp
        have hlen : (d.drop bs).length ≤ f := by
          rw [List.length_drop]; omega
        have hlen' : (d.drop bs).length ≤ f' := by
          rw [List.length_drop]; omega
        rw [ih f' _ hlen hlen']

theorem chunkList_nil (bs : Nat) : chunkList bs [] = [] := rfl

theorem chunkList_cons (bs : Nat) (hbs : 0 < bs) (d : List Nat) (hd : d ≠ []) :
    chunkList bs d = d.take bs :: chunkList bs (d.drop bs) := by
  have hd0 : 0 < d.length := by
    cases d
    · exact absurd rfl hd
    · simp
  obtain ⟨m, hm⟩ : ∃ m, d.length = m + 1 := ⟨d.length - 1, by omega⟩
  show chunkListAux bs d.length d = _
  rw [hm, chunkListAux, if_neg hd]
  congr 1
  exact chunkListAux_eq bs hbs _ _ _
    (by rw [List.length_drop]; omega)
    (by rw [List.length_drop])

/-- `put_block_meta` on a version with an empty block list: the `add_block`
unwrap always succeeds and the inserted Version holds exactly the one new
block. -/
theorem putBlockMetaEvents_empty (version : Version) (hv : version.blocks = [])
    (off : Nat) (h : Hash) :
    putBlockMetaEvents version off h
      = some [PutEvent.insertVersion { version with blocks := [⟨off, h⟩] },
          PutEvent.insertBlockRef ⟨h, version.uuid, false⟩] := by
  simp [putBlockMetaEvents, Version.add_block, hv]

/-- The streaming loop on a reachable chunker with enough fuel: it records,
for each remaining block, the single-block Version insert, the BlockRef
insert and the block RPC, at offsets advancing by the block lengths, and
returns the final `next_offset = off + content.length`. -/
theorem putLoop_spec (hashFn : List Nat → Hash) (version : Version)
    (hv : version.blocks = []) :
    ∀ (fuel : Nat) (c : BodyChunker) (off : Nat), c.Inv → 0 < c.block_size →
      c.content.length < fuel →
      putLoop hashFn version fuel c off
        = (loopEventsSpec hashFn version off (chunkList c.block_size c.content),
            Except.ok (off + c.content.length)) := by
  intro fuel
  induction fuel with
  | zero =>
    intro c off _ _ hlen
    omega
  | succ f ih =>
    intro c off hInv hbs hlen
    obtain ⟨h1, h2, h3, h4⟩ := next_spec c hInv hbs
    have hnext : c.next
        = (if c.content = [] then none else some (c.content.take c.block_size),
          (c.next).2) := by
      rw [← h1]
    by_cases hc : c.content = []
    · rw [if_pos hc] at hnext
      rw [putLoop, hnext]
      rw [hc, chunkList_nil, loopEventsSpec]
      simp [hc]
    · rw [if_neg hc] at hnext
      rw [putLoop, hnext]
      simp only [putBlockMetaEvents_empty version hv]
      have hihc : putLoop hashFn version f (c.next).2
            (off + (c.content.take c.block_size).length)
          = (loopEventsSpec hashFn version
              (off + (c.content.take c.block_size).length)
              (chunkList c.block_size (c.content.drop c.block_size)),
            Except.ok (off + (c.content.take c.block_size).length
              + (c.content.drop c.block_size).length)) := by
        have hl : (c.next).2.content.length < f := by
          rw [h2, List.length_drop]
          have : c.content.length ≠ 0 := by
            intro h
            exact hc (List.eq_nil_of_length_eq_zero h)
          omega
        have := ih (c.next).2 (off + (c.content.take c.block_size).length) h3
          (by rw [h4]; exact hbs) hl
        rw [h2, h4] at this
        exact this
      rw [hihc]
      rw [chunkList_cons c.block_size hbs c.content hc, loopEventsSpec]
      simp only [blockEvents, List.length_take, List.length_drop,
        Prod.mk.injEq, Except.ok.injEq]
      constructor
      · simp [List.append_assoc]
      · omega

/-- Full effect trace of a streaming-path `handle_put` (nonempty body whose
first block is not below the inline threshold): the provisional incomplete
insert, the first block's metadata and RPC, the loop's per-block effects,
and the final complete insert carrying the total size, returning the fresh
uuid. -/
theorem handle_put_streaming (hashFn : List Nat → Hash) (u : UUID) (now : Nat)
    (bs it : Nat) (mime bucket key : String) (body : List (List Nat))
    (hbs : 0 < bs) (hn : body.flatten ≠ [])
    (hfb : ¬ (body.flatten.take bs).length < it) :
    handle_put hashFn u now bs it mime bucket key body
      = (PutEvent.insertObject (Object.new bucket key
            [⟨u, now, mime, (body.flatten.take bs).length, false,
              ObjectVersionData.FirstBlock (hashFn (body.flatten.take bs))⟩])
          :: [PutEvent.insertVersion
                ⟨u, bucket, key, false, [⟨0, hashFn (body.flatten.take bs)⟩]⟩,
              PutEvent.insertBlockRef
                ⟨hashFn (body.flatten.take bs), u, false⟩]
          ++ [PutEvent.putBlock (hashFn (body.flatten.take bs))
                (body.flatten.take bs)]
          ++ loopEventsSpec hashFn (Version.new u bucket key false [])
              (body.flatten.take bs).length (chunkList bs (body.flatten.drop bs))
          ++ [PutEvent.insertObject (Object.new bucket key
                [⟨u, now, mime, body.flatten.length, true,
                  ObjectVersionData.FirstBlock (hashFn (body.flatten.take bs))⟩])],
        Except.ok u) := by
  have hInv : (BodyChunker.new body bs).Inv := by intro h; cases h
  have hbs' : 0 < (BodyChunker.new body bs).block_size := hbs
  obtain ⟨h1, h2, h3, h4⟩ := next_spec (BodyChunker.new body bs) hInv hbs'
  have hcont : (BodyChunker.new body bs).content = body.flatten := by
    simp [BodyChunker.new, BodyChunker.content]
  rw [hcont] at h1 h2
  rcases hnx : (BodyChunker.new body bs).next with ⟨o, c1⟩
  rw [hnx] at h1 h2 h3 h4
  rw [if_neg hn] at h1
  simp only at h1 h2 h3 h4
  subst h1
  have hploop : putLoop hashFn (Version.new u bucket key false [])
        (body.flatten.length + 1) c1 (body.flatten.take bs).length
      = (loopEventsSpec hashFn (Version.new u bucket key false [])
          (body.flatten.take bs).length (chunkList bs (body.flatten.drop bs)),
        Except.ok ((body.flatten.take bs).length
          + (body.flatten.drop bs).length)) := by
    have hlen : c1.content.length < body.flatten.length + 1 := by
      rw [h2, List.length_drop]
      omega
    have := putLoop_spec hashFn (Version.new u bucket key false []) rfl
      (body.flatten.length + 1) c1 (body.flatten.take bs).length h3
      (by rw [h4]; exact hbs) hlen
    rw [h2, h4] at this
    exact this
  have hsz : (body.flatten.take bs).length + (body.flatten.drop bs).length
      = body.flatten.length := by
    rw [List.length_take, List.length_drop]
    omega
  have hbsz : (BodyChunker.new body bs).block_size = bs := rfl
  simp only [handle_put, hbsz, hnx, if_neg hfb,
    putBlockMetaEvents_empty (Version.new u bucket key false []) rfl, hploop, hsz]
  rfl

/-- Every block position of the loop trace carries its single-block Version
insert, at the offset accumulated from the lengths of the preceding
blocks. -/
theorem loopEventsSpec_mem (hashFn : List Nat → Hash) (version : Version) :
    ∀ (blocks : List (List Nat)) (off j : Nat), j < blocks.length →
      PutEvent.insertVersion ⟨version.uuid, version.bucket, version.key,
          version.deleted,
          [⟨off + ((blocks.take j).map List.length).sum,
            hashFn (blocks.getD j [])⟩]⟩
        ∈ loopEventsSpec hashFn version off blocks := by
  intro blocks
  induction blocks with
  | nil =>
    intro off j h
    simp at h
  | cons b rest ih =>
    intro off j hj
    cases j with
    | zero =>
      rw [loopEventsSpec]
      simp only [List.take_zero, List.map_nil, List.sum_nil, Nat.add_zero,
        List.getD_cons_zero]
      simp [blockEvents]
    | succ j =>
      rw [loopEventsSpec]
      have hmem := ih (off + b.length) j (by simpa using hj)
      rw [List.mem_append]
      right
      simp only [List.take_succ_cons, List.map_cons, List.sum_cons,
        List.getD_cons_succ]
      rw [← Nat.add_assoc]
      exact hmem

/-- A block index below the content guarantees the chunk exists. -/
theorem chunkList_length_gt (bs : Nat) (hbs : 0 < bs) :
    ∀ (j : Nat) (d : List Nat), j * bs < d.length →
      j < (chunkList bs d).length := by
  intro j
  induction j with
  | zero =>
    intro d hd
    have hne : d ≠ [] := by
      intro h; subst h; simp at hd
    rw [chunkList_cons bs hbs d hne]
    simp
  | succ j ih =>
    intro d hd
    have hne : d ≠ [] := by
      intro h; subst h; simp at hd
    rw [chunkList_cons bs hbs d hne]
    simp only [List.length_cons]
    have harith : (j + 1) * bs = j * bs + bs := by ring
    have hlt : j * bs < (d.drop bs).length := by
      rw [List.length_drop]; omega
    have := ih _ hlt
    omega

/-- The `j`-th chunk is the `j`-th `bs`-byte slice. -/
theorem chunkList_getD (bs : Nat) (hbs : 0 < bs) :
    ∀ (j : Nat) (d : List Nat), j * bs < d.length →
      (chunkList bs d).getD j [] = (d.drop (j * bs)).take bs := by
  intro j
  induction j with
  | zero =>
    intro d hd
    have hne : d ≠ [] := by
      intro h; subst h; simp at hd
    rw [chunkList_cons bs hbs d hne]
    simp
  | succ j ih =>
    intro d hd
    have hne : d ≠ [] := by
      intro h; subst h; simp at hd
    have harith : (j + 1) * bs = j * bs + bs := by ring
    rw [chunkList_cons bs hbs d hne, List.getD_cons_succ]
    have hlt : j * bs < (d.drop bs).length := by
      rw [List.length_drop]; omega
    rw [ih _ hlt, List.drop_drop]
    have : bs + j * bs = (j + 1) * bs := by ring
    rw [this]

/-- The first `j` chunks are all full when `j * bs` bytes exist. -/
theorem chunkList_take_sum (bs : Nat) (hbs : 0 < bs) :
    ∀ (j : Nat) (d : List Nat), j * bs ≤ d.length →
      (((chunkList bs d).take j).map List.length).sum = j * bs := by
  intro j
  induction j with
  | zero =>
    intro d _
    simp
  | succ j ih =>
    intro d hd
    have harith : (j + 1) * bs = j * bs + bs := by ring
    have hne : d ≠ [] := by
      intro h
      subst h
      simp at hd
      omega
    rw [chunkList_cons bs hbs d hne, List.take_succ_cons, List.map_cons,
      List.sum_cons]
    have hle : j * bs ≤ (d.drop bs).length := by
      rw [List.length_drop]; omega
    rw [ih _ hle, List.length_take]
    have hd0 : 0 < d.length := by
      cases d
      · exact absurd rfl hne
      · simp
    omega

/-- The sum of the lengths of the first `i` blocks of `d` is `i * bs`
whenever block `i` still starts within `d`. -/
theorem range_sum_blocks (bs : Nat) (d : List Nat) :
    ∀ i, i * bs ≤ d.length →
      ((List.range i).map
        (fun j => ((d.drop (j * bs)).take bs).length)).sum = i * bs := by
  intro i
  induction i with
  | zero => simp
  | succ i ih =>
    intro hi
    have harith : (i + 1) * bs = i * bs + bs := by ring
    rw [List.range_succ, List.map_append, List.sum_append]
    have hle : i * bs ≤ d.length := by omega
    rw [ih hle]
    simp only [List.map_cons, List.map_nil, List.sum_cons, List.sum_nil]
    rw [List.length_take, List.length_drop]
    omega

/-- C1: on a streaming-path PUT (nonempty body whose first block reaches
the inline threshold) in which every block RPC and table insert succeeds,
`handle_put` records for each block `Bi` a single-block Version whose
offset is the sum of the lengths of `B0..B(i-1)`, starts with a
provisional ObjectVersion insert and finally commits an ObjectVersion with
the same uuid, `is_complete = true` and `size` equal to the total number of
body bytes, returning the fresh uuid. -/
theorem C1_streaming_put (hashFn : List Nat → Hash) (u : UUID) (now : Nat)
    (bs it : Nat) (mime bucket key : String) (body : List (List Nat))
    (hbs : 0 < bs) (hn : body.flatten ≠ [])
    (hstream : it ≤ (body.flatten.take bs).length) :
    ∃ evs,
      handle_put hashFn u now bs it mime bucket key body
          = (evs, Except.ok u) ∧
      (∀ i, i * bs < body.flatten.length →
        PutEvent.insertVersion ⟨u, bucket, key, false,
          [⟨((List.range i).map
              (fun j => ((body.flatten.drop (j * bs)).take bs).length)).sum,
            hashFn ((body.flatten.drop (i * bs)).take bs)⟩]⟩ ∈ evs) ∧
      evs.head? = some (PutEvent.insertObject (Object.new bucket key
        [⟨u, now, mime, (body.flatten.take bs).length, false,
          ObjectVersionData.FirstBlock (hashFn (body.flatten.take bs))⟩])) ∧
      evs.getLast? = some (PutEvent.insertObject (Object.new bucket key
        [⟨u, now, mime, body.flatten.length, true,
          ObjectVersionData.FirstBlock (hashFn (body.flatten.take bs))⟩])) := by
  have hfb : ¬ (body.flatten.take bs).length < it := Nat.not_lt.mpr hstream
  have htrace := handle_put_streaming hashFn u now bs it mime bucket key body
    hbs hn hfb
  refine ⟨_, htrace, ?_, ?_, ?_⟩
  · intro i hi
    have hn0 : 0 < body.flatten.length := List.length_pos.mpr hn
    cases i with
    | zero =>
      simp only [List.range_zero, List.map_nil, List.sum_nil, Nat.zero_mul,
        List.drop_zero]
      simp
    | succ j =>
      have harith : (j + 1) * bs = j * bs + bs := by ring
      have hbsn : bs ≤ body.flatten.length := by
        have : bs ≤ (j + 1) * bs := by
          have := Nat.mul_le_mul_right bs (Nat.succ_le_succ (Nat.zero_le j))
          simpa using this
        omega
      have hlt : j * bs < (body.flatten.drop bs).length := by
        rw [List.length_drop]; omega
      have hmem := loopEventsSpec_mem hashFn (Version.new u bucket key false [])
        (chunkList bs (body.flatten.drop bs)) (body.flatten.take bs).length j
        (chunkList_length_gt bs hbs j _ hlt)
      have hblk : (chunkList bs (body.flatten.drop bs)).getD j []
          = (body.flatten.drop ((j + 1) * bs)).take bs := by
        rw [chunkList_getD bs hbs j _ hlt, List.drop_drop]
        have : bs + j * bs = (j + 1) * bs := by ring
        rw [this]
      have hoff : (body.flatten.take bs).length
            + (((chunkList bs (body.flatten.drop bs)).take j).map
                List.length).sum
          = ((List.range (j + 1)).map
              (fun jj => ((body.flatten.drop (jj * bs)).take bs).length)).sum := by
        have hsum1 : (((chunkList bs (body.flatten.drop bs)).take j).map
            List.length).sum = j * bs := by
          apply chunkList_take_sum bs hbs
          rw [List.length_drop]
          omega
        have hsum2 : ((List.range (j + 1)).map
            (fun jj => ((body.flatten.drop (jj * bs)).take bs).length)).sum
            = (j + 1) * bs := by
          apply range_sum_blocks
          omega
        rw [hsum1, hsum2, List.length_take]
        omega
      rw [hblk, hoff] at hmem
      refine List.mem_append.mpr (Or.inl (List.mem_append.mpr (Or.inr ?_)))
      exact hmem
  · rfl
  · exact List.getLast?_concat _

/-- C3: a PUT whose first chunker block is strictly below `INLINE_THRESHOLD`
performs exactly one table insert — an Object holding a single complete
inline ObjectVersion of the first block — and returns the fresh uuid, while
a first block of length exactly `INLINE_THRESHOLD` takes the streaming path
(its first effect is the provisional incomplete `FirstBlock` insert). -/
theorem C3_inline_put (hashFn : List Nat → Hash) (u : UUID) (now : Nat)
    (bs it : Nat) (mime bucket key : String) (body : List (List Nat))
    (hbs : 0 < bs) (hn : body.flatten ≠ []) :
    ((body.flatten.take bs).length < it →
      handle_put hashFn u now bs it mime bucket key body
        = ([PutEvent.insertObject (Object.new bucket key
            [⟨u, now, mime, (body.flatten.take bs).length, true,
              ObjectVersionData.Inline (body.flatten.take bs)⟩])],
          Except.ok u)) ∧
    ((body.flatten.take bs).length = it →
      ∃ evs,
        handle_put hashFn u now bs it mime bucket key body
            = (evs, Except.ok u) ∧
        evs.head? = some (PutEvent.insertObject (Object.new bucket key
          [⟨u, now, mime, (body.flatten.take bs).length, false,
            ObjectVersionData.FirstBlock (hashFn (body.flatten.take bs))⟩]))) := by
  constructor
  · intro hlt
    have hInv : (BodyChunker.new body bs).Inv := by intro h; cases h
    obtain ⟨h1, _, _, _⟩ := next_spec (BodyChunker.new body bs) hInv hbs
    have hcont : (BodyChunker.new body bs).content = body.flatten := by
      simp [BodyChunker.new, BodyChunker.content]
    rw [hcont] at h1
    rcases hnx : (BodyChunker.new body bs).next with ⟨o, c1⟩
    rw [hnx] at h1
    rw [if_neg hn] at h1
    simp only at h1
    subst h1
    have hbsz : (BodyChunker.new body bs).block_size = bs := rfl
    simp only [handle_put, hbsz, hnx, if_pos hlt]
  · intro heq
    have hfb : ¬ (body.flatten.take bs).length < it := by omega
    exact ⟨_, handle_put_streaming hashFn u now bs it mime bucket key body
      hbs hn hfb, rfl⟩

/-- C8: a PUT whose body stream carries zero bytes fails with
`BadRequest("Empty body")` and performs no table insert and no block
RPC. -/
theorem C8_empty_body (hashFn : List Nat → Hash) (u : UUID) (now : Nat)
    (bs it : Nat) (mime bucket key : String) (body : List (List Nat))
    (hempty : body.flatten = []) :
    handle_put hashFn u now bs it mime bucket key body
      = ([], Except.error (Error.BadRequest "Empty body")) := by
  rcases hfl : fillLoop bs body [] with ⟨b', r', f'⟩
  obtain ⟨h1, _⟩ := fillLoop_spec bs body [] hfl
  have hf : f' = [] := by
    have h0 : f' ++ b'.flatten = [] := by
      rw [h1]
      simpa using hempty
    exact (List.append_eq_nil.mp h0).1
  have hnx : (BodyChunker.new body bs).next = (none, ⟨b', r', bs, f'⟩) := by
    simp only [BodyChunker.next, BodyChunker.new, Bool.false_eq_true,
      if_false, hfl, hf]
    simp
  simp [handle_put, hnx]

/-- The streaming loop never hits the modelled `add_block` unwrap panic
when started from the empty-block-list version, and every Version record it
inserts holds exactly one block. -/
theorem putLoop_no_panic (hashFn : List Nat → Hash) (version : Version)
    (hv : version.blocks = []) :
    ∀ (fuel : Nat) (c : BodyChunker) (off : Nat),
      (putLoop hashFn version fuel c off).2
          ≠ Except.error (Error.Internal "panic: add_block unwrap") ∧
      (∀ v : Version, PutEvent.insertVersion v
          ∈ (putLoop hashFn version fuel c off).1 → v.blocks.length = 1) := by
  intro fuel
  induction fuel with
  | zero =>
    intro c off
    constructor
    · intro h
      simp only [putLoop] at h
      rw [Except.error.injEq, Error.Internal.injEq] at h
      exact absurd h (by decide)
    · intro v hv'
      simp [putLoop] at hv'
  | succ f ih =>
    intro c off
    rcases hnc : c.next with ⟨o, c'⟩
    cases o with
    | none =>
      constructor
      · intro h
        simp only [putLoop, hnc] at h
        cases h
      · intro v hv'
        simp [putLoop, hnc] at hv'
    | some block =>
      have hmeta := putBlockMetaEvents_empty version hv off (hashFn block)
      obtain ⟨ih1, ih2⟩ := ih c' (off + block.length)
      constructor
      · intro h
        simp only [putLoop, hnc, hmeta] at h
        exact ih1 h
      · intro v hv'
        simp only [putLoop, hnc, hmeta] at hv'
        simp [List.mem_append] at hv'
        rcases hv' with hc | hc
        · rw [hc]
          simp [hv]
        · exact ih2 v hc

/-- C10: the `.unwrap()` on `Version::add_block` inside `put_block_meta`
never fires in `handle_put` — every call clones the empty-block-list
version — and consequently every Version record the PUT pipeline inserts
holds exactly one VersionBlock. -/
theorem C10_add_block_never_panics (hashFn : List Nat → Hash) (u : UUID)
    (now : Nat) (bs it : Nat) (mime bucket key : String)
    (body : List (List Nat)) :
    (handle_put hashFn u now bs it mime bucket key body).2
        ≠ Except.error (Error.Internal "panic: add_block unwrap") ∧
    (∀ v : Version, PutEvent.insertVersion v
        ∈ (handle_put hashFn u now bs it mime bucket key body).1 →
      v.blocks.length = 1) := by
  rcases hnx : (BodyChunker.new body bs).next with ⟨o, c1⟩
  cases o with
  | none =>
    constructor
    · intro h
      simp only [handle_put, hnx] at h
      cases h
    · intro v hv'
      simp [handle_put, hnx] at hv'
  | some first_block =>
    by_cases hit : first_block.length < it
    · constructor
      · intro h
        simp only [handle_put, hnx, if_pos hit] at h
        cases h
      · intro v hv'
        simp [handle_put, hnx, if_pos hit] at hv'
    · have hmeta := putBlockMetaEvents_empty (Version.new u bucket key false [])
        rfl 0 (hashFn first_block)
      obtain ⟨hl1, hl2⟩ := putLoop_no_panic hashFn
        (Version.new u bucket key false []) rfl (body.flatten.length + 1) c1
        first_block.length
      rcases hpl : putLoop hashFn (Version.new u bucket key false [])
          (body.flatten.length + 1) c1 first_block.length with ⟨evs, res⟩
      rw [hpl] at hl1 hl2
      simp only at hl1 hl2
      cases res with
      | error e =>
        constructor
        · intro h
          simp only [handle_put, hnx, if_neg hit, hmeta, hpl] at h
          rw [Except.error.injEq] at h
          exact hl1 (by rw [h])
        · intro v hv'
          simp only [handle_put, hnx, if_neg hit, hmeta, hpl] at hv'
          simp [List.mem_append] at hv'
          rcases hv' with hc | hc
          · rw [hc]
            rfl
          · exact hl2 v hc
      | ok next_offset =>
        constructor
        · intro h
          simp only [handle_put, hnx, if_neg hit, hmeta, hpl] at h
          cases h
        · intro v hv'
          simp only [handle_put, hnx, if_neg hit, hmeta, hpl] at hv'
          simp [List.mem_append] at hv'
          rcases hv' with hc | hc
          · rw [hc]
            rfl
          · exact hl2 v hc

/-- C1 witness: with `block_size = 4` and body `"abcdefghij"` the recorded
single-block Versions sit at offsets 0, 4, 8 with blocks of lengths 4, 4, 2
and the final commit has `size = 10`, `is_complete = true`. -/
theorem C1_streaming_put_witness :
    (0 < 4 ∧ ([[97, 98, 99, 100, 101, 102, 103, 104, 105, 106]] :
        List (List Nat)).flatten ≠ [] ∧
      4 ≤ (([[97, 98, 99, 100, 101, 102, 103, 104, 105, 106]] :
        List (List Nat)).flatten.take 4).length) ∧
    (∃ evs,
      handle_put (fun b => b) [1] 0 4 4 "text/plain" "b" "k"
          [[97, 98, 99, 100, 101, 102, 103, 104, 105, 106]]
        = (evs, Except.ok [1]) ∧
      PutEvent.insertVersion ⟨[1], "b", "k", false, [⟨0, [97, 98, 99, 100]⟩]⟩
        ∈ evs ∧
      PutEvent.insertVersion ⟨[1], "b", "k", false, [⟨4, [101, 102, 103, 104]⟩]⟩
        ∈ evs ∧
      PutEvent.insertVersion ⟨[1], "b", "k", false, [⟨8, [105, 106]⟩]⟩ ∈ evs ∧
      evs.getLast? = some (PutEvent.insertObject (Object.new "b" "k"
        [⟨[1], 0, "text/plain", 10, true,
          ObjectVersionData.FirstBlock [97, 98, 99, 100]⟩]))) := by
  refine ⟨⟨by decide, by decide, by decide⟩, ?_⟩
  obtain ⟨evs, h1, h2, h3, h4⟩ := C1_streaming_put (fun b => b) [1] 0 4 4
    "text/plain" "b" "k" [[97, 98, 99, 100, 101, 102, 103, 104, 105, 106]]
    (by decide) (by decide) (by decide)
  exact ⟨evs, h1, h2 0 (by decide), h2 1 (by decide), h2 2 (by decide), h4⟩

/-- C2 witness: the chunker over the 3-byte body `[7, 8, 9]` with
`block_size = 2` satisfies the block-length contract. -/
theorem C2_chunker_blocks_witness :
    0 < 2 ∧
    ((∀ i, i + 1 < (([[7, 8, 9]] : List (List Nat)).flatten.length + 2 - 1) / 2 →
      ∃ b, (BodyChunker.new [[7, 8, 9]] 2).run i = some b ∧ b.length = 2) ∧
    (0 < ([[7, 8, 9]] : List (List Nat)).flatten.length →
      ∃ b, (BodyChunker.new [[7, 8, 9]] 2).run
            ((([[7, 8, 9]] : List (List Nat)).flatten.length + 2 - 1) / 2 - 1)
          = some b ∧
        b.length = (if ([[7, 8, 9]] : List (List Nat)).flatten.length % 2 = 0
          then 2 else ([[7, 8, 9]] : List (List Nat)).flatten.length % 2)) ∧
    (∀ i, (([[7, 8, 9]] : List (List Nat)).flatten.length + 2 - 1) / 2 ≤ i →
      (BodyChunker.new [[7, 8, 9]] 2).run i = none) ∧
    (([[7, 8, 9]] : List (List Nat)).flatten.length = 0 →
      (BodyChunker.new [[7, 8, 9]] 2).run 0 = none)) :=
  ⟨by decide, C2_chunker_blocks [[7, 8, 9]] 2 (by decide)⟩

/-- C3 witness: a 2-byte body below the threshold 3 commits exactly one
inline complete version and returns the fresh uuid. -/
theorem C3_inline_put_witness :
    0 < 4 ∧ ([[1, 2]] : List (List Nat)).flatten ≠ [] ∧
    handle_put (fun b => b) [2] 5 4 3 "text/plain" "b" "k" [[1, 2]]
      = ([PutEvent.insertObject (Object.new "b" "k"
          [⟨[2], 5, "text/plain", 2, true, ObjectVersionData.Inline [1, 2]⟩])],
        Except.ok [2]) := by
  refine ⟨by decide, by decide, ?_⟩
  exact (C3_inline_put (fun b => b) [2] 5 4 3 "text/plain" "b" "k" [[1, 2]]
    (by decide) (by decide)).1 (by decide)

/-- C8 witness: a body of empty chunks carries zero bytes and the PUT fails
with `BadRequest("Empty body")`, recording no effect. -/
theorem C8_empty_body_witness :
    (([[], []] : List (List Nat)).flatten = []) ∧
    handle_put (fun b => b) [3] 0 4 3 "text/plain" "b" "k" [[], []]
      = ([], Except.error (Error.BadRequest "Empty body")) :=
  ⟨by decide, C8_empty_body (fun b => b) [3] 0 4 3 "text/plain" "b" "k"
    [[], []] (by decide)⟩

/-! ## HEAD / GET -/

/-- C4: `handle_head` selects the most recent complete non-DeleteMarker
version and answers 200 with its Content-Type, Content-Length and
Last-Modified headers (`NotFound` when the object is absent or no such
version exists); `handle_get` selects the most recent complete version
regardless of data and answers `NotFound` when the object is absent, no
complete version exists, or the selected version is a DeleteMarker. -/
theorem C4_head_get_selection (get_block : Hash → Except Error (List Nat))
    (version_get : UUID → Except Error (Option Version)) :
    handle_head none = Except.error Error.NotFound ∧
    (∀ o : Object,
      o.versions.reverse.find?
          (fun v => v.is_complete
            && decide (v.data ≠ ObjectVersionData.DeleteMarker)) = none →
      handle_head (some o) = Except.error Error.NotFound) ∧
    (∀ (o : Object) (v : ObjectVersion),
      o.versions.reverse.find?
          (fun v => v.is_complete
            && decide (v.data ≠ ObjectVersionData.DeleteMarker)) = some v →
      handle_head (some o)
        = Except.ok ⟨200, ⟨v.mime_type, v.size, v.timestamp⟩,
            RespBody.bytes []⟩) ∧
    handle_get get_block version_get none = Except.error Error.NotFound ∧
    (∀ o : Object,
      o.versions.reverse.find? (fun v => v.is_complete) = none →
      handle_get get_block version_get (some o)
        = Except.error Error.NotFound) ∧
    (∀ (o : Object) (v : ObjectVersion),
      o.versions.reverse.find? (fun v => v.is_complete) = some v →
      v.data = ObjectVersionData.DeleteMarker →
      handle_get get_block version_get (some o)
        = Except.error Error.NotFound) := by
  refine ⟨rfl, ?_, ?_, rfl, ?_, ?_⟩
  · intro o hfind
    simp only [ne_eq, decide_not] at hfind
    simp [handle_head, hfind]
  · intro o v hfind
    simp only [ne_eq, decide_not] at hfind
    simp [handle_head, hfind, object_headers]
  · intro o hfind
    simp [handle_get, hfind]
  · intro o v hfind hdata
    simp [handle_get, hfind, hdata]

/-- C4 witness: a stored object whose only version is complete and inline
answers HEAD with 200 and the version's headers. -/
theorem C4_head_get_selection_witness :
    handle_head (some (Object.new "b" "k"
        [⟨[1], 7, "text/plain", 5, true,
          ObjectVersionData.Inline [104, 105, 106, 107, 108]⟩]))
      = Except.ok ⟨200, ⟨"text/plain", 5, 7⟩, RespBody.bytes []⟩ :=
  (C4_head_get_selection (fun _ => Except.error Error.NotFound)
      (fun _ => Except.ok none)).2.2.1
    (Object.new "b" "k"
      [⟨[1], 7, "text/plain", 5, true,
        ObjectVersionData.Inline [104, 105, 106, 107, 108]⟩])
    ⟨[1], 7, "text/plain", 5, true,
      ObjectVersionData.Inline [104, 105, 106, 107, 108]⟩
    (by decide)

/-! ## DELETE -/

/-- `handle_delete` on an absent object is a no-op with the zero-UUID
sentinel. -/
theorem handle_delete_none (u : UUID) (now : Nat) (bucket key : String) :
    handle_delete u now bucket key none = ([], zeroUUID) := rfl

/-- `handle_delete` when every version is a delete marker: a no-op with the
zero-UUID sentinel. -/
theorem handle_delete_inactive (u : UUID) (now : Nat) (bucket key : String)
    (o : Object)
    (h : ∀ v ∈ o.versions, v.data = ObjectVersionData.DeleteMarker) :
    handle_delete u now bucket key (some o) = ([], zeroUUID) := by
  have hany : o.versions.any
      (fun v => decide (v.data ≠ ObjectVersionData.DeleteMarker)) = false := by
    rw [List.any_eq_false]
    intro v hv
    simp [h v hv]
  simp only [handle_delete, hany]
  rfl

/-- `handle_delete` when some version is not a delete marker: it inserts
exactly one fresh delete-marker Object and returns the fresh uuid. -/
theorem handle_delete_active (u : UUID) (now : Nat) (bucket key : String)
    (o : Object)
    (h : ∃ v ∈ o.versions, v.data ≠ ObjectVersionData.DeleteMarker) :
    handle_delete u now bucket key (some o)
      = ([PutEvent.insertObject (Object.new bucket key
          [⟨u, now, "application/x-delete-marker", 0, true,
            ObjectVersionData.DeleteMarker⟩])], u) := by
  have hany : o.versions.any
      (fun v => decide (v.data ≠ ObjectVersionData.DeleteMarker)) = true := by
    rw [List.any_eq_true]
    obtain ⟨v, hv, hne⟩ := h
    exact ⟨v, hv, by simpa using hne⟩
  simp only [handle_delete, hany]
  rfl

/-- C6: `handle_delete` returns the all-zero uuid sentinel and inserts
nothing exactly when the object is absent or every version is a
DeleteMarker; otherwise it inserts a single Object holding one fresh
complete delete-marker version of size 0 and returns the fresh uuid. -/
theorem C6_delete_semantics (u : UUID) (now : Nat) (bucket key : String)
    (stored : Option Object) :
    (handle_delete u now bucket key stored = ([], zeroUUID) ↔
      (stored = none ∨ ∃ o, stored = some o ∧
        ∀ v ∈ o.versions, v.data = ObjectVersionData.DeleteMarker)) ∧
    (∀ o, stored = some o →
      (∃ v ∈ o.versions, v.data ≠ ObjectVersionData.DeleteMarker) →
      handle_delete u now bucket key stored
        = ([PutEvent.insertObject (Object.new bucket key
            [⟨u, now, "application/x-delete-marker", 0, true,
              ObjectVersionData.DeleteMarker⟩])], u)) := by
  constructor
  · constructor
    · intro hres
      cases stored with
      | none => exact Or.inl rfl
      | some o =>
        refine Or.inr ⟨o, rfl, ?_⟩
        by_contra hnot
        push_neg at hnot
        obtain ⟨v, hv, hne⟩ := hnot
        rw [handle_delete_active u now bucket key o ⟨v, hv, hne⟩] at hres
        have := congrArg (fun p => p.1.length) hres
        simp at this
    · intro hcond
      rcases hcond with rfl | ⟨o, rfl, hall⟩
      · rfl
      · exact handle_delete_inactive u now bucket key o hall
  · rintro o rfl hex
    exact handle_delete_active u now bucket key o hex

/-- C6 witness: deleting an object that holds a live inline version inserts
one delete-marker Object and returns the fresh uuid. -/
theorem C6_delete_semantics_witness :
    handle_delete [9] 3 "b" "k" (some (Object.new "b" "k"
        [⟨[1], 1, "text/plain", 2, true, ObjectVersionData.Inline [5, 6]⟩]))
      = ([PutEvent.insertObject (Object.new "b" "k"
          [⟨[9], 3, "application/x-delete-marker", 0, true,
            ObjectVersionData.DeleteMarker⟩])], [9]) :=
  (C6_delete_semantics [9] 3 "b" "k" (some (Object.new "b" "k"
      [⟨[1], 1, "text/plain", 2, true, ObjectVersionData.Inline [5, 6]⟩]))).2
    (Object.new "b" "k"
      [⟨[1], 1, "text/plain", 2, true, ObjectVersionData.Inline [5, 6]⟩])
    rfl (by decide)

/-- C5 counterexample: on an object whose most recent complete version is a
DeleteMarker atop an older complete inline version, HEAD answers 200 with
the older version's headers while GET answers `NotFound` — so HEAD and GET
are not equivalent up to the body. -/
theorem C5_counterexample :
    handle_head (some (Object.new "b" "k"
        [⟨[1], 1, "text/plain", 2, true, ObjectVersionData.Inline [5, 6]⟩,
          ⟨[2], 2, "application/x-delete-marker", 0, true,
            ObjectVersionData.DeleteMarker⟩]))
      = Except.ok ⟨200, ⟨"text/plain", 2, 1⟩, RespBody.bytes []⟩ ∧
    handle_get (fun _ => Except.error Error.NotFound) (fun _ => Except.ok none)
        (some (Object.new "b" "k"
          [⟨[1], 1, "text/plain", 2, true, ObjectVersionData.Inline [5, 6]⟩,
            ⟨[2], 2, "application/x-delete-marker", 0, true,
              ObjectVersionData.DeleteMarker⟩]))
      = Except.error Error.NotFound :=
  ⟨rfl, rfl⟩

/-- A `find?` hit also wins under a conjoined filter when it satisfies the
extra conjunct: every earlier element already failed the weaker filter. -/
theorem find?_strengthen {α : Type} (p q : α → Bool) :
    ∀ (l : List α) (v : α), l.find? p = some v → q v = true →
      l.find? (fun x => p x && q x) = some v := by
  intro l
  induction l with
  | nil =>
    intro v h _
    simp at h
  | cons x xs ih =>
    intro v h hq
    by_cases hp : p x = true
    · rw [List.find?_cons_of_pos _ hp] at h
      have hv : v = x := by
        rw [Option.some.injEq] at h
        exact h.symm
      subst hv
      exact List.find?_cons_of_pos _ (by rw [hp, hq]; rfl)
    · rw [List.find?_cons_of_neg _ (by simpa using hp)] at h
      rw [List.find?_cons_of_neg _ (by simp [hp])]
      exact ih v h hq

/-- The conditions under which `handle_get`'s body step succeeds for the
selected version: inline always; `FirstBlock` when the first block fetch
succeeds and the Version record exists with a nonempty block list. -/
def bodyStepOk (get_block : Hash → Except Error (List Nat))
    (version_get : UUID → Except Error (Option Version))
    (v : ObjectVersion) : Prop :=
  match v.data with
  | ObjectVersionData.DeleteMarker => False
  | ObjectVersionData.Inline _ => True
  | ObjectVersionData.FirstBlock h =>
    ∃ b ver, get_block h = Except.ok b
      ∧ version_get v.uuid = Except.ok (some ver) ∧ ver.blocks ≠ []

/-- C5 amended: HEAD and GET agree up to the body whenever the most recent
complete version is not a DeleteMarker and its body step succeeds — both
answer 200 with identical Content-Type, Content-Length and Last-Modified,
HEAD with an empty body.  (When the most recent complete version is a
DeleteMarker, GET answers NotFound while HEAD may still succeed on an older
version: see the counterexample.) -/
theorem C5_head_get_equiv_amended (get_block : Hash → Except Error (List Nat))
    (version_get : UUID → Except Error (Option Version))
    (o : Object) (v : ObjectVersion)
    (hsel : o.versions.reverse.find? (fun w => w.is_complete) = some v)
    (hnd : v.data ≠ ObjectVersionData.DeleteMarker)
    (hbody : bodyStepOk get_block version_get v) :
    handle_head (some o)
        = Except.ok ⟨200, object_headers v, RespBody.bytes []⟩ ∧
    ∃ body, handle_get get_block version_get (some o)
        = Except.ok ⟨200, object_headers v, body⟩ := by
  constructor
  · have hstr := find?_strengthen (fun w : ObjectVersion => w.is_complete)
      (fun w : ObjectVersion => !decide (w.data = ObjectVersionData.DeleteMarker))
      o.versions.reverse v hsel (by simp [hnd])
    simp [handle_head, hstr]
  · cases hdata : v.data with
    | DeleteMarker => exact absurd hdata hnd
    | Inline bytes =>
      refine ⟨RespBody.bytes bytes, ?_⟩
      simp [handle_get, hsel, hdata]
    | FirstBlock h =>
      rw [bodyStepOk, hdata] at hbody
      obtain ⟨b, ver, hgb, hvg, hne⟩ := hbody
      cases hblocks : ver.blocks with
      | nil => exact absurd hblocks hne
      | cons vb0 rest =>
        refine ⟨RespBody.stream ((vb0.hash, some b)
          :: rest.map (fun vb => (vb.hash, none))), ?_⟩
        simp [handle_get, hsel, hdata, hgb, hvg, hblocks]

/-- C5 witness: on an object with a single complete inline version, HEAD
and GET agree on status and headers, HEAD with the empty body. -/
theorem C5_head_get_equiv_amended_witness :
    handle_head (some (Object.new "b" "k"
        [⟨[1], 4, "text/plain", 2, true, ObjectVersionData.Inline [5, 6]⟩]))
        = Except.ok ⟨200, object_headers
            ⟨[1], 4, "text/plain", 2, true, ObjectVersionData.Inline [5, 6]⟩,
          RespBody.bytes []⟩ ∧
    ∃ body, handle_get (fun _ => Except.error Error.NotFound)
        (fun _ => Except.ok none)
        (some (Object.new "b" "k"
          [⟨[1], 4, "text/plain", 2, true, ObjectVersionData.Inline [5, 6]⟩]))
        = Except.ok ⟨200, object_headers
            ⟨[1], 4, "text/plain", 2, true, ObjectVersionData.Inline [5, 6]⟩,
          body⟩ :=
  C5_head_get_equiv_amended (fun _ => Except.error Error.NotFound)
    (fun _ => Except.ok none)
    (Object.new "b" "k"
      [⟨[1], 4, "text/plain", 2, true, ObjectVersionData.Inline [5, 6]⟩])
    ⟨[1], 4, "text/plain", 2, true, ObjectVersionData.Inline [5, 6]⟩
    (by decide) (by decide) trivial

/-- Inserting a version whose timestamp is later than every existing one,
under a fresh uuid, appends it at the end of the ordered version set. -/
theorem insertVersionSorted_append_fresh (m : ObjectVersion) :
    ∀ (l : List ObjectVersion),
      (∀ v ∈ l, v.timestamp < m.timestamp) →
      (∀ v ∈ l, v.uuid ≠ m.uuid) →
      insertVersionSorted l m = l ++ [m] := by
  intro l
  induction l with
  | nil =>
    intro _ _
    rfl
  | cons w rest ih =>
    intro hts huuid
    have hw := hts w (List.mem_cons_self _ _)
    have huuidneg : ¬ m.uuid = w.uuid := by
      intro he
      exact huuid w (List.mem_cons_self _ _) he.symm
    have hordneg : ¬ (m.timestamp < w.timestamp
        ∨ (m.timestamp = w.timestamp ∧ uuidLt m.uuid w.uuid = true)) := by
      rintro (h | ⟨h, _⟩) <;> omega
    rw [insertVersionSorted, if_neg huuidneg, if_neg hordneg,
      ih (fun v hv => hts v (List.mem_cons_of_mem _ hv))
        (fun v hv => huuid v (List.mem_cons_of_mem _ hv))]
    rfl

/-- Pruning a version set that ends in a complete version keeps exactly
that last version. -/
theorem pruneObsolete_append_complete (m : ObjectVersion)
    (hm : m.is_complete = true) :
    ∀ (l : List ObjectVersion), pruneObsolete (l ++ [m]) = [m] := by
  intro l
  induction l with
  | nil =>
    rw [List.nil_append, pruneObsolete]
    simp
  | cons v rest ih =>
    rw [List.cons_append, pruneObsolete, if_pos]
    · exact ih
    · rw [List.any_append]
      simp [hm]

/-- C7: after a DELETE that wrote a delete marker (the object held a
non-delete version; the fresh marker carries a fresh uuid and a later
timestamp than every stored version), the table merge prunes everything
before the complete marker, so an immediately following second DELETE is a
no-op: it inserts nothing and returns the all-zero UUID sentinel —
regardless of which versions the object held before the first DELETE. -/
theorem C7_delete_after_delete_noop (u1 u2 : UUID) (t1 t2 : Nat)
    (bucket key : String) (o : Object)
    (hactive : ∃ v ∈ o.versions, v.data ≠ ObjectVersionData.DeleteMarker)
    (hearlier : ∀ v ∈ o.versions, v.timestamp < t1)
    (hfresh : ∀ v ∈ o.versions, v.uuid ≠ u1) :
    handle_delete u1 t1 bucket key (some o)
        = ([PutEvent.insertObject (Object.new bucket key
            [⟨u1, t1, "application/x-delete-marker", 0, true,
              ObjectVersionData.DeleteMarker⟩])], u1) ∧
    handle_delete u2 t2 bucket key (some (Object.merge o (Object.new bucket key
          [⟨u1, t1, "application/x-delete-marker", 0, true,
            ObjectVersionData.DeleteMarker⟩])))
        = ([], zeroUUID) := by
  constructor
  · exact handle_delete_active u1 t1 bucket key o hactive
  · apply handle_delete_inactive
    have hins : insertVersionSorted o.versions
          ⟨u1, t1, "application/x-delete-marker", 0, true,
            ObjectVersionData.DeleteMarker⟩
        = o.versions ++ [⟨u1, t1, "application/x-delete-marker", 0, true,
            ObjectVersionData.DeleteMarker⟩] :=
      insertVersionSorted_append_fresh _ o.versions hearlier hfresh
    have hmerged : (Object.merge o (Object.new bucket key
          [⟨u1, t1, "application/x-delete-marker", 0, true,
            ObjectVersionData.DeleteMarker⟩])).versions
        = [⟨u1, t1, "application/x-delete-marker", 0, true,
            ObjectVersionData.DeleteMarker⟩] := by
      show pruneObsolete (List.foldl insertVersionSorted o.versions
        [⟨u1, t1, "application/x-delete-marker", 0, true,
          ObjectVersionData.DeleteMarker⟩]) = _
      rw [List.foldl_cons, List.foldl_nil, hins]
      exact pruneObsolete_append_complete _ rfl o.versions
    intro v hv
    rw [hmerged] at hv
    rcases List.mem_singleton.mp hv with rfl
    rfl

/-- C7 witness: an object holding a live inline version; the first DELETE
writes a marker, and after the table merge the second DELETE inserts
nothing and returns the zero sentinel. -/
theorem C7_delete_after_delete_noop_witness :
    handle_delete [2] 2 "b" "k" (some (Object.new "b" "k"
        [⟨[1], 1, "text/plain", 2, true, ObjectVersionData.Inline [5, 6]⟩]))
      = ([PutEvent.insertObject (Object.new "b" "k"
          [⟨[2], 2, "application/x-delete-marker", 0, true,
            ObjectVersionData.DeleteMarker⟩])], [2]) ∧
    handle_delete [3] 3 "b" "k" (some (Object.merge
        (Object.new "b" "k"
          [⟨[1], 1, "text/plain", 2, true, ObjectVersionData.Inline [5, 6]⟩])
        (Object.new "b" "k"
          [⟨[2], 2, "application/x-delete-marker", 0, true,
            ObjectVersionData.DeleteMarker⟩])))
      = ([], zeroUUID) :=
  C7_delete_after_delete_noop [2] [3] 2 3 "b" "k"
    (Object.new "b" "k"
      [⟨[1], 1, "text/plain", 2, true, ObjectVersionData.Inline [5, 6]⟩])
    (by decide) (by decide) (by decide)

/-! ## Bucket CRDT algebra -/

theorem permission_merge_comm (a b : PermissionSet) :
    a.merge b = b.merge a := by
  rcases a with ⟨r1, w1⟩
  rcases b with ⟨r2, w2⟩
  simp [PermissionSet.merge, Bool.or_comm]

theorem permission_merge_assoc (a b c : PermissionSet) :
    (a.merge b).merge c = a.merge (b.merge c) := by
  rcases a with ⟨r1, w1⟩
  rcases b with ⟨r2, w2⟩
  rcases c with ⟨r3, w3⟩
  simp [PermissionSet.merge, Bool.or_assoc]

theorem permission_merge_idem (a : PermissionSet) : a.merge a = a := by
  rcases a with ⟨r, w⟩
  simp [PermissionSet.merge]

theorem timedJoin_none_right {V : Type} (m : V → V → V)
    (x : Option (Nat × V)) : timedJoin m x none = x := by
  rcases x with _ | ⟨t, v⟩ <;> rfl

theorem timedJoin_some_some {V : Type} (m : V → V → V) (t1 t2 : Nat)
    (v1 v2 : V) :
    timedJoin m (some (t1, v1)) (some (t2, v2))
      = (if t1 < t2 then some (t2, v2)
        else if t2 < t1 then some (t1, v1) else some (t1, m v1 v2)) := rfl

theorem timedJoin_none_left {V : Type} (m : V → V → V)
    (x : Option (Nat × V)) : timedJoin m none x = x := by
  rcases x with _ | ⟨t, v⟩ <;> rfl

theorem timedJoin_comm {V : Type} (m : V → V → V)
    (hm : ∀ x y, m x y = m y x) (o1 o2 : Option (Nat × V)) :
    timedJoin m o1 o2 = timedJoin m o2 o1 := by
  rcases o1 with _ | ⟨t1, v1⟩
  · rw [timedJoin_none_left, timedJoin_none_right]
  rcases o2 with _ | ⟨t2, v2⟩
  · rw [timedJoin_none_left, timedJoin_none_right]
  rcases Nat.lt_trichotomy t1 t2 with h | h | h
  · simp [timedJoin_some_some, h, Nat.lt_asymm h]
  · subst h
    simp [timedJoin_some_some, Nat.lt_irrefl, hm v1 v2]
  · simp [timedJoin_some_some, h, Nat.lt_asymm h]

theorem timedJoin_assoc {V : Type} (m : V → V → V)
    (hm : ∀ x y z, m (m x y) z = m x (m y z)) (o1 o2 o3 : Option (Nat × V)) :
    timedJoin m (timedJoin m o1 o2) o3
      = timedJoin m o1 (timedJoin m o2 o3) := by
  rcases o1 with _ | ⟨t1, v1⟩
  · rw [timedJoin_none_left, timedJoin_none_left]
  rcases o2 with _ | ⟨t2, v2⟩
  · rw [timedJoin_none_right, timedJoin_none_left]
  rcases o3 with _ | ⟨t3, v3⟩
  · rw [timedJoin_none_right, timedJoin_none_right]
  rcases Nat.lt_trichotomy t1 t2 with h12 | h12 | h12
  · rcases Nat.lt_trichotomy t2 t3 with h23 | h23 | h23
    · simp [timedJoin_some_some, h12, h23, Nat.lt_trans h12 h23,
        Nat.lt_asymm h12, Nat.lt_asymm h23]
    · subst h23
      simp [timedJoin_some_some, h12, Nat.lt_irrefl, Nat.lt_asymm h12]
    · simp [timedJoin_some_some, h12, h23, Nat.lt_asymm h12, Nat.lt_asymm h23]
  · subst h12
    rcases Nat.lt_trichotomy t1 t3 with h13 | h13 | h13
    · simp [timedJoin_some_some, Nat.lt_irrefl, h13, Nat.lt_asymm h13]
    · subst h13
      simp [timedJoin_some_some, Nat.lt_irrefl, hm]
    · simp [timedJoin_some_some, Nat.lt_irrefl, h13, Nat.lt_asymm h13]
  · rcases Nat.lt_trichotomy t2 t3 with h23 | h23 | h23
    · rcases Nat.lt_trichotomy t1 t3 with h13 | h13 | h13
      · simp [timedJoin_some_some, h12, h23, h13, Nat.lt_asymm h12,
          Nat.lt_asymm h23, Nat.lt_asymm h13]
      · subst h13
        simp [timedJoin_some_some, h12, h23, Nat.lt_irrefl, Nat.lt_asymm h12,
          Nat.lt_asymm h23]
      · simp [timedJoin_some_some, h12, h23, h13, Nat.lt_asymm h12,
          Nat.lt_asymm h23, Nat.lt_asymm h13]
    · subst h23
      simp [timedJoin_some_some, h12, Nat.lt_irrefl, Nat.lt_asymm h12]
    · simp [timedJoin_some_some, h12, h23, Nat.lt_trans h23 h12,
        Nat.lt_asymm h12, Nat.lt_asymm h23, Nat.lt_asymm (Nat.lt_trans h23 h12)]

theorem timedJoin_idem {V : Type} (m : V → V → V) (hm : ∀ x, m x x = x)
    (o : Option (Nat × V)) : timedJoin m o o = o := by
  rcases o with _ | ⟨t, v⟩
  · rfl
  · simp [timedJoin_some_some, hm]

theorem LWWMap.merge_comm {K V : Type} (m : V → V → V)
    (hm : ∀ x y, m x y = m y x) (a o : LWWMap K V) :
    LWWMap.merge m a o = LWWMap.merge m o a :=
  funext fun k => timedJoin_comm m hm (a k) (o k)

theorem LWWMap.merge_assoc {K V : Type} (m : V → V → V)
    (hm : ∀ x y z, m (m x y) z = m x (m y z)) (a b c : LWWMap K V) :
    LWWMap.merge m (LWWMap.merge m a b) c
      = LWWMap.merge m a (LWWMap.merge m b c) :=
  funext fun k => timedJoin_assoc m hm (a k) (b k) (c k)

theorem LWWMap.merge_idem {K V : Type} (m : V → V → V)
    (hm : ∀ x, m x x = x) (a : LWWMap K V) : LWWMap.merge m a a = a :=
  funext fun k => timedJoin_idem m hm (a k)

theorem LWW.mergeWith_def {T : Type} (m : T → T → T) (a o : LWW T) :
    LWW.mergeWith m a o
      = (if a.ts < o.ts then o else if o.ts < a.ts then a
        else ⟨a.ts, m a.v o.v⟩) := rfl

theorem LWW.mergeWith_comm {T : Type} (m : T → T → T)
    (hm : ∀ x y, m x y = m y x) (a o : LWW T) :
    LWW.mergeWith m a o = LWW.mergeWith m o a := by
  rcases a with ⟨ta, va⟩
  rcases o with ⟨tb, vb⟩
  rcases Nat.lt_trichotomy ta tb with h | h | h
  · simp [LWW.mergeWith_def, h, Nat.lt_asymm h]
  · subst h
    simp [LWW.mergeWith_def, Nat.lt_irrefl, hm va vb]
  · simp [LWW.mergeWith_def, h, Nat.lt_asymm h]

theorem LWW.mergeWith_assoc {T : Type} (m : T → T → T)
    (hm : ∀ x y z, m (m x y) z = m x (m y z)) (a b c : LWW T) :
    LWW.mergeWith m (LWW.mergeWith m a b) c
      = LWW.mergeWith m a (LWW.mergeWith m b c) := by
  rcases a with ⟨t1, v1⟩
  rcases b with ⟨t2, v2⟩
  rcases c with ⟨t3, v3⟩
  rcases Nat.lt_trichotomy t1 t2 with h12 | h12 | h12
  · rcases Nat.lt_trichotomy t2 t3 with h23 | h23 | h23
    · simp [LWW.mergeWith_def, h12, h23, Nat.lt_trans h12 h23,
        Nat.lt_asymm h12, Nat.lt_asymm h23]
    · subst h23
      simp [LWW.mergeWith_def, h12, Nat.lt_irrefl, Nat.lt_asymm h12]
    · simp [LWW.mergeWith_def, h12, h23, Nat.lt_asymm h12, Nat.lt_asymm h23]
  · subst h12
    rcases Nat.lt_trichotomy t1 t3 with h13 | h13 | h13
    · simp [LWW.mergeWith_def, Nat.lt_irrefl, h13, Nat.lt_asymm h13]
    · subst h13
      simp [LWW.mergeWith_def, Nat.lt_irrefl, hm]
    · simp [LWW.mergeWith_def, Nat.lt_irrefl, h13, Nat.lt_asymm h13]
  · rcases Nat.lt_trichotomy t2 t3 with h23 | h23 | h23
    · rcases Nat.lt_trichotomy t1 t3 with h13 | h13 | h13
      · simp [LWW.mergeWith_def, h12, h23, h13, Nat.lt_asymm h12,
          Nat.lt_asymm h23, Nat.lt_asymm h13]
      · subst h13
        simp [LWW.mergeWith_def, h12, h23, Nat.lt_irrefl, Nat.lt_asymm h12,
          Nat.lt_asymm h23]
      · simp [LWW.mergeWith_def, h12, h23, h13, Nat.lt_asymm h12,
          Nat.lt_asymm h23, Nat.lt_asymm h13]
    · subst h23
      simp [LWW.mergeWith_def, h12, Nat.lt_irrefl, Nat.lt_asymm h12]
    · simp [LWW.mergeWith_def, h12, h23, Nat.lt_trans h23 h12,
        Nat.lt_asymm h12, Nat.lt_asymm h23, Nat.lt_asymm (Nat.lt_trans h23 h12)]

theorem LWW.mergeWith_idem {T : Type} (m : T → T → T)
    (hm : ∀ x, m x x = x) (a : LWW T) : LWW.mergeWith m a a = a := by
  rcases a with ⟨ta, va⟩
  simp [LWW.mergeWith, hm]

theorem params_merge_comm (a o : BucketParams) :
    a.merge o = o.merge a := by
  rcases a with ⟨ka, wa⟩
  rcases o with ⟨ko, wo⟩
  simp only [BucketParams.merge, BucketParams.mk.injEq]
  exact ⟨LWWMap.merge_comm _ permission_merge_comm _ _,
    LWW.mergeWith_comm _ Bool.or_comm _ _⟩

theorem params_merge_assoc (a b c : BucketParams) :
    (a.merge b).merge c = a.merge (b.merge c) := by
  rcases a with ⟨ka, wa⟩
  rcases b with ⟨kb, wb⟩
  rcases c with ⟨kc, wc⟩
  simp only [BucketParams.merge, BucketParams.mk.injEq]
  exact ⟨LWWMap.merge_assoc _ permission_merge_assoc _ _ _,
    LWW.mergeWith_assoc _ Bool.or_assoc _ _ _⟩

theorem params_merge_idem (a : BucketParams) : a.merge a = a := by
  rcases a with ⟨ka, wa⟩
  simp only [BucketParams.merge, BucketParams.mk.injEq]
  exact ⟨LWWMap.merge_idem _ permission_merge_idem _,
    LWW.mergeWith_idem _ Bool.or_self _⟩

theorem state_merge_comm (s o : BucketState) :
    s.merge o = o.merge s := by
  cases s with
  | Deleted => cases o <;> rfl
  | Present p =>
    cases o with
    | Deleted => rfl
    | Present q =>
      simp only [BucketState.merge, BucketState.Present.injEq]
      exact params_merge_comm p q

theorem state_merge_assoc (a b c : BucketState) :
    (a.merge b).merge c = a.merge (b.merge c) := by
  cases a <;> cases b <;> cases c <;>
    simp only [BucketState.merge, BucketState.Present.injEq]
  exact params_merge_assoc _ _ _

theorem state_merge_idem (s : BucketState) : s.merge s = s := by
  cases s with
  | Deleted => rfl
  | Present p =>
    simp only [BucketState.merge, BucketState.Present.injEq]
    exact params_merge_idem p

/-- C9: `Bucket`'s merge — the LWW state register whose equal-timestamp
value merge is `BucketState::merge` (Deleted absorbs; two Present states
merge their params field-wise) — is associative, commutative and
idempotent on buckets of the same name. -/
theorem C9_bucket_merge_crdt (a b c : Bucket) (hab : a.name = b.name)
    (hbc : b.name = c.name) :
    Bucket.merge (Bucket.merge a b) c = Bucket.merge a (Bucket.merge b c) ∧
    Bucket.merge a b = Bucket.merge b a ∧
    Bucket.merge a a = a := by
  refine ⟨?_, ?_, ?_⟩
  · rcases a with ⟨na, sa⟩
    rcases b with ⟨nb, sb⟩
    rcases c with ⟨nc, sc⟩
    simp only [Bucket.merge, Bucket.mk.injEq]
    exact ⟨trivial, LWW.mergeWith_assoc _ state_merge_assoc _ _ _⟩
  · rcases a with ⟨na, sa⟩
    rcases b with ⟨nb, sb⟩
    simp only [Bucket.merge, Bucket.mk.injEq]
    exact ⟨hab, LWW.mergeWith_comm _ state_merge_comm _ _⟩
  · rcases a with ⟨na, sa⟩
    simp only [Bucket.merge, Bucket.mk.injEq]
    exact ⟨trivial, LWW.mergeWith_idem _ state_merge_idem _⟩

/-- C9 witness: concrete same-name buckets (one Present with an empty
key map, two Deleted at different timestamps). -/
theorem C9_bucket_merge_crdt_witness :
    (Bucket.merge (Bucket.merge ⟨"bkt", ⟨1, BucketState.Deleted⟩⟩
          ⟨"bkt", ⟨2, BucketState.Deleted⟩⟩)
        ⟨"bkt", ⟨3, BucketState.Present ⟨fun _ => none, ⟨0, false⟩⟩⟩⟩
      = Bucket.merge ⟨"bkt", ⟨1, BucketState.Deleted⟩⟩
        (Bucket.merge ⟨"bkt", ⟨2, BucketState.Deleted⟩⟩
          ⟨"bkt", ⟨3, BucketState.Present ⟨fun _ => none, ⟨0, false⟩⟩⟩⟩)) ∧
    (Bucket.merge ⟨"bkt", ⟨1, BucketState.Deleted⟩⟩
          ⟨"bkt", ⟨2, BucketState.Deleted⟩⟩
      = Bucket.merge ⟨"bkt", ⟨2, BucketState.Deleted⟩⟩
          ⟨"bkt", ⟨1, BucketState.Deleted⟩⟩) ∧
    Bucket.merge ⟨"bkt", ⟨1, BucketState.Deleted⟩⟩
        ⟨"bkt", ⟨1, BucketState.Deleted⟩⟩
      = ⟨"bkt", ⟨1, BucketState.Deleted⟩⟩ :=
  C9_bucket_merge_crdt ⟨"bkt", ⟨1, BucketState.Deleted⟩⟩
    ⟨"bkt", ⟨2, BucketState.Deleted⟩⟩
    ⟨"bkt", ⟨3, BucketState.Present ⟨fun _ => none, ⟨0, false⟩⟩⟩⟩ rfl rfl

end Garage
